import Mathlib

/-!
Shallow embedding of `main.go` of the go-file-organizer repository.

Paths are modelled as component lists (`List String`): `filepath.Join dir name`
appends a component and `filepath.Dir` drops the last component, which is how
the program uses them (it only ever joins a directory with one final name and
takes the parent of such a path).  Strings stay Lean `String`s; `strings.ToLower`
is modelled by character-wise ASCII case folding, which covers every string
the program compares.  `int64` sizes become `Int`.  Filesystem effects are
modelled by explicit state passing over an `FS` record of existing directory
paths and file paths; fallible operations return `Except String`.
-/

namespace FileOrganizer

/-- `File` struct of main.go: one directory entry observed at scan time. -/
structure File where
  Name : String
  Path : List String
  Size : Int
  ModTime : Nat
  IsDir : Bool
  Category : String
  Extension : String
deriving Repr, DecidableEq

/-- `Categories` of main.go.  The Go source uses a `map[string][]string`;
iteration order of a Go map is unspecified, so the table is embedded as an
association list in source order and order-independence is proved separately. -/
def Categories : List (String × List String) :=
  [("Images", [".jpg", ".jpeg", ".png", ".gif"]),
   ("Docs",   [".pdf", ".docx", ".txt", ".md"]),
   ("Videos", [".mp4", ".mov", ".avi", ".mkv"]),
   ("Audio",  [".mp3", ".wav", ".ogg"])]

/-- The double loop of `File.Categorize`: first pair whose extension list
contains `ext` wins; `none` when no pair matches. -/
def findCat (ext : String) : List (String × List String) → Option String
  | [] => none
  | (c, exts) :: rest => if ext ∈ exts then some c else findCat ext rest

/-- `File.Categorize` over an explicit table: directories get "Folder",
otherwise the table is searched and "Other" is the default when no match. -/
def categorizeWith (table : List (String × List String)) (isDir : Bool)
    (ext : String) : String :=
  if isDir then "Folder"
  else
    match findCat ext table with
    | some c => c
    | none => "Other"

/-- `(f *File) Categorize()` of main.go, returning the updated record instead
of mutating in place. -/
def Categorize (f : File) : File :=
  { f with Category := categorizeWith Categories f.IsDir f.Extension }

/-- Whitespace recognised by Go `unicode.IsSpace` in the Latin-1 range, which
is what `strings.TrimSpace` strips (space, tab, newline, vertical tab, form
feed, carriage return, NEL, NBSP). -/
def isGoSpace (c : Char) : Bool :=
  c == ' ' || c == '\t' || c == '\n' || c == Char.ofNat 11 ||
  c == Char.ofNat 12 || c == '\r' || c == Char.ofNat 0x85 || c == Char.ofNat 0xA0

/-- `strings.TrimSpace`: drop leading and trailing whitespace. -/
def goTrimSpace (s : String) : String :=
  ⟨((s.data.dropWhile isGoSpace).reverse.dropWhile isGoSpace).reverse⟩

/-- `isFileValid` of main.go; `none` is Go `nil`, `some msg` is a Go error. -/
def isFileValid (file : File) : Option String :=
  if file.IsDir then none
  else if goTrimSpace file.Name = "" then some "filename cannot be empty"
  else if file.Size ≤ 0 then some "file size must be positive"
  else none

/-- Inner loop of `filepath.Ext`, run over the reversed character list of the
name: scanning from the end, stop with "" at a path separator or at the start,
and at the first dot return the dot plus everything after it (`acc`). -/
def extRev : List Char → List Char → List Char
  | _, [] => []
  | acc, c :: rest =>
    if c = '/' then []
    else if c = '.' then c :: acc
    else extRev (c :: acc) rest

/-- `filepath.Ext` of the Go standard library (Unix path separator). -/
def filepathExt (s : String) : String :=
  ⟨extRev [] s.data.reverse⟩

/-- `strings.ToLower`: character-wise lowercasing (ASCII case folding, which
covers every extension the program compares). -/
def goToLower (s : String) : String :=
  ⟨s.data.map Char.toLower⟩

/-- Filesystem state: the sets of existing directory paths and file paths,
each path a component list. -/
structure FS where
  dirs : List (List String)
  files : List (List String)
deriving Repr, DecidableEq

/-- `os.MkdirAll` as used by `processFile`: creating an already-existing
directory succeeds and changes nothing; a file standing where the directory
should go is an error.  (The parent components always exist here: the
destination's parent is the directory that was scanned.) -/
def mkdirAll (p : List String) (fs : FS) : Except String FS :=
  if p ∈ fs.files then Except.error "not a directory"
  else if p ∈ fs.dirs then Except.ok fs
  else Except.ok { fs with dirs := p :: fs.dirs }

/-- `os.Rename` on the FS model: the source must exist as a file and the
destination's parent directory must exist; an existing destination file is
overwritten. -/
def rename (src dst : List String) (fs : FS) : Except String FS :=
  if src ∈ fs.files then
    if dst.dropLast ∈ fs.dirs then
      Except.ok { fs with
        files := dst :: fs.files.filter (fun q => q != src && q != dst) }
    else Except.error "no such file or directory"
  else Except.error "no such file or directory"

/-- `processFile` of main.go: state machine over one record plus the dry-run
flag, returning the Go error (or `ok`) together with the filesystem state
after the call.  Printing (timing line, "Would move" line) has no effect on
the result or the state and is omitted. -/
def processFile (file : File) (dryRun : Bool) (fs : FS) :
    Except String Unit × FS :=
  if file.IsDir then (Except.ok (), fs)
  else
    match isFileValid file with
    | some e => (Except.error e, fs)
    | none =>
      if dryRun then (Except.ok (), fs)
      else
        let destDir := file.Path.dropLast ++ [file.Category]
        match mkdirAll destDir fs with
        | Except.error e => (Except.error ("failed to create directory: " ++ e), fs)
        | Except.ok fs1 =>
          let destPath := destDir ++ [file.Name]
          match rename file.Path destPath fs1 with
          | Except.error e => (Except.error ("failed to move file: " ++ e), fs1)
          | Except.ok fs2 => (Except.ok (), fs2)

/-- Result of `entry.Info()` for one directory entry: size and mod time. -/
structure EntryInfo where
  size : Int
  modTime : Nat
deriving Repr, DecidableEq

/-- One entry returned by `os.ReadDir`; `info = none` models a failing
`entry.Info()` call (e.g. permission denied). -/
structure DirEntry where
  name : String
  isDir : Bool
  info : Option EntryInfo
deriving Repr, DecidableEq

/-- The record `scanDir` builds for one readable entry, including the
`Categorize` call. -/
def scannedFile (dirPath : List String) (entry : DirEntry)
    (info : EntryInfo) : File :=
  Categorize
    { Name := entry.name
      Path := dirPath ++ [entry.name]
      Size := info.size
      ModTime := info.modTime
      IsDir := entry.isDir
      Category := ""
      Extension := goToLower (filepathExt entry.name) }

/-- The entry loop of `scanDir`: records for readable entries in order, and
the skip warnings printed for entries whose metadata read failed. -/
def scanEntries (dirPath : List String) :
    List DirEntry → List File × List String
  | [] => ([], [])
  | entry :: rest =>
    match entry.info with
    | none =>
      ((scanEntries dirPath rest).1,
       ("Skipping " ++ entry.name) :: (scanEntries dirPath rest).2)
    | some info =>
      (scannedFile dirPath entry info :: (scanEntries dirPath rest).1,
       (scanEntries dirPath rest).2)

/-- `scanDir` of main.go, over the outcome of `os.ReadDir`: a failing read of
the directory itself aborts with a descriptive error and no records; otherwise
every entry is processed by the entry loop. -/
def scanDir (dirPath : List String)
    (readDirResult : Except String (List DirEntry)) :
    Except String (List File × List String) :=
  match readDirResult with
  | Except.error e => Except.error ("failed to read directory: " ++ e)
  | Except.ok entries => Except.ok (scanEntries dirPath entries)

/-- Sample record: a valid pdf file inside directory `d`. -/
def samplePdf : File :=
  { Name := "a.pdf", Path := ["d", "a.pdf"], Size := 10, ModTime := 0,
    IsDir := false, Category := "Docs", Extension := ".pdf" }

/-- Sample record: a valid file with an extension absent from the table. -/
def sampleXyz : File :=
  { Name := "a.xyz", Path := ["d", "a.xyz"], Size := 10, ModTime := 0,
    IsDir := false, Category := "Other", Extension := ".xyz" }

/-- Sample record: a directory entry with empty name and non-positive size. -/
def sampleDirRec : File :=
  { Name := "", Path := ["d", ""], Size := -1, ModTime := 0,
    IsDir := true, Category := "Folder", Extension := "" }

/-- Sample record: a non-directory with whitespace-only name. -/
def sampleBad : File :=
  { Name := " ", Path := ["d", " "], Size := 0, ModTime := 0,
    IsDir := false, Category := "Other", Extension := "" }

/-- Sample filesystem: directory `d` holding the file `d/a.pdf`. -/
def sampleFS : FS := { dirs := [["d"]], files := [["d", "a.pdf"]] }

/-- Sample directory entry whose metadata read succeeds. -/
def sampleEntry : DirEntry := { name := "A.PDF", isDir := false, info := some ⟨10, 0⟩ }

/-
Helper lemmas about the classification search.
-/

/-- If the search succeeds, the result is the first component of some table
entry whose extension list contains the extension. -/
theorem findCat_exists {e c : String} {t : List (String × List String)}
    (h : findCat e t = some c) : ∃ p ∈ t, p.1 = c ∧ e ∈ p.2 := by
  induction t with
  | nil => simp [findCat] at h
  | cons hd tl ih =>
    obtain ⟨c0, x0⟩ := hd
    by_cases hm : e ∈ x0
    · rw [findCat, if_pos hm] at h
      injection h with h
      exact ⟨(c0, x0), List.mem_cons_self _ _, h, hm⟩
    · rw [findCat, if_neg hm] at h
      obtain ⟨p, hp, h1, h2⟩ := ih h
      exact ⟨p, List.mem_cons_of_mem _ hp, h1, h2⟩

/-- The search fails exactly when no table entry contains the extension. -/
theorem findCat_eq_none_iff {e : String} {t : List (String × List String)} :
    findCat e t = none ↔ ∀ p ∈ t, e ∉ p.2 := by
  induction t with
  | nil => simp [findCat]
  | cons hd tl ih =>
    obtain ⟨c0, x0⟩ := hd
    by_cases hm : e ∈ x0
    · rw [findCat, if_pos hm]
      simp only [iff_false, reduceCtorEq, false_iff, not_forall]
      exact ⟨(c0, x0), List.mem_cons_self _ _, not_not_intro hm⟩
    · rw [findCat, if_neg hm, ih]
      constructor
      · intro hall p hp
        rcases List.mem_cons.1 hp with rfl | hp2
        · exact hm
        · exact hall p hp2
      · intro hall p hp
        exact hall p (List.mem_cons_of_mem _ hp)

/-- When the extension lists in the table are pairwise disjoint, the search
finds exactly the entry owning the extension. -/
theorem findCat_of_mem {t : List (String × List String)}
    {p : String × List String} {e : String}
    (hdisj : List.Pairwise (fun a b => ∀ x ∈ a.2, x ∉ b.2) t)
    (hmem : p ∈ t) (hext : e ∈ p.2) : findCat e t = some p.1 := by
  induction t with
  | nil => cases hmem
  | cons hd tl ih =>
    obtain ⟨hd_disj, htl⟩ := List.pairwise_cons.1 hdisj
    rcases List.mem_cons.1 hmem with rfl | hmemtl
    · obtain ⟨c0, x0⟩ := p
      rw [findCat, if_pos hext]
    · have hne : e ∉ hd.2 := fun hin => hd_disj _ hmemtl e hin hext
      obtain ⟨c0, x0⟩ := hd
      rw [findCat, if_neg hne]
      exact ih htl hmemtl

/-- A successful search returns a key of the table. -/
theorem findCat_mem_keys {e c : String} {t : List (String × List String)}
    (h : findCat e t = some c) : c ∈ t.map Prod.fst := by
  obtain ⟨p, hp, h1, _⟩ := findCat_exists h
  exact h1 ▸ List.mem_map_of_mem Prod.fst hp

/-- Under pairwise-disjoint extension lists, the search result is invariant
under permutation of the table. -/
theorem findCat_perm {t u : List (String × List String)} (hp : t.Perm u)
    (hdisj : List.Pairwise (fun a b => ∀ x ∈ a.2, x ∉ b.2) t) (e : String) :
    findCat e u = findCat e t := by
  have hdisj2 : List.Pairwise (fun a b => ∀ x ∈ a.2, x ∉ b.2) u := by
    refine (List.Perm.pairwise_iff ?_ hp).1 hdisj
    intro a b h x hxb hxa
    exact h x hxa hxb
  cases hfc : findCat e t with
  | some c =>
    obtain ⟨p, hpm, h1, h2⟩ := findCat_exists hfc
    rw [← h1]
    exact findCat_of_mem hdisj2 (hp.subset hpm) h2
  | none =>
    rw [findCat_eq_none_iff] at hfc ⊢
    exact fun p hpm => hfc p (hp.symm.subset hpm)

/-- C3: for every non-directory record whose extension appears in the
category table, `Categorize` assigns exactly the category owning that
extension; for every extension absent from the table it assigns the fallback
label "Other". -/
theorem categorize_table_and_fallback :
    (∀ (f : File) (p : String × List String), f.IsDir = false →
        p ∈ Categories → f.Extension ∈ p.2 →
        (Categorize f).Category = p.1) ∧
    (∀ f : File, f.IsDir = false →
        (∀ p ∈ Categories, f.Extension ∉ p.2) →
        (Categorize f).Category = "Other") := by
  constructor
  · intro f p hd hmem hext
    show categorizeWith Categories f.IsDir f.Extension = p.1
    rw [hd, categorizeWith, if_neg (by simp),
        findCat_of_mem (by decide) hmem hext]
  · intro f hd hnone
    show categorizeWith Categories f.IsDir f.Extension = "Other"
    rw [hd, categorizeWith, if_neg (by simp),
        findCat_eq_none_iff.2 hnone]

/-- Witness for C3 at the concrete extensions ".pdf" and ".xyz". -/
theorem categorize_table_and_fallback_witness :
    (Categorize samplePdf).Category = "Docs" ∧
    (Categorize sampleXyz).Category = "Other" :=
  ⟨categorize_table_and_fallback.1 samplePdf
      ("Docs", [".pdf", ".docx", ".txt", ".md"]) rfl (by decide) (by decide),
   categorize_table_and_fallback.2 sampleXyz rfl (by decide)⟩

/-- C8: in the shipped table no extension appears under more than one
category, and classification is invariant under any reordering of the table,
so `Categorize` is a deterministic function of the directory flag and the
extension even though Go map iteration order is unspecified. -/
theorem categories_disjoint_and_order_independent :
    List.Pairwise (fun a b => ∀ e ∈ a.2, e ∉ b.2) Categories ∧
    ∀ (table : List (String × List String)), Categories.Perm table →
      ∀ (d : Bool) (e : String),
        categorizeWith table d e = categorizeWith Categories d e := by
  refine ⟨by decide, ?_⟩
  intro table hp d e
  cases d with
  | true => rfl
  | false =>
    rw [categorizeWith, categorizeWith, findCat_perm hp (by decide) e]

/-- Witness for C8 at the reversed table and the extension ".pdf". -/
theorem categories_disjoint_and_order_independent_witness :
    categorizeWith Categories.reverse false ".pdf" =
      categorizeWith Categories false ".pdf" :=
  categories_disjoint_and_order_independent.2 Categories.reverse
    (List.reverse_perm Categories).symm false ".pdf"

/-- C2: in preview mode (dry-run flag true), processing any record performs
no filesystem mutation whatsoever. -/
theorem processFile_preview_no_mutation (f : File) (fs : FS) :
    (processFile f true fs).2 = fs := by
  rw [processFile]
  split
  · rfl
  · split
    · rfl
    · rfl

/-- C7: a record whose directory flag is set is an immediate no-op success in
both modes, bypassing validation entirely. -/
theorem processFile_directory_noop (f : File) (mode : Bool) (fs : FS)
    (hdir : f.IsDir = true) :
    processFile f mode fs = (Except.ok (), fs) := by
  rw [processFile, if_pos hdir]

/-- Witness for C7: a directory record with empty name and negative size
succeeds in both preview and apply mode. -/
theorem processFile_directory_noop_witness :
    processFile sampleDirRec true sampleFS = (Except.ok (), sampleFS) ∧
    processFile sampleDirRec false sampleFS = (Except.ok (), sampleFS) :=
  ⟨processFile_directory_noop sampleDirRec true sampleFS rfl,
   processFile_directory_noop sampleDirRec false sampleFS rfl⟩

/-- C4: validation fails exactly on non-directory records whose trimmed name
is empty or whose size is non-positive (directories always pass), and a
record that fails validation causes no filesystem mutation in `processFile`,
which returns the validation error unchanged. -/
theorem isFileValid_spec_and_guard :
    (∀ f : File, isFileValid f ≠ none ↔
        (f.IsDir = false ∧ (goTrimSpace f.Name = "" ∨ f.Size ≤ 0))) ∧
    (∀ (f : File) (e : String) (mode : Bool) (fs : FS),
        isFileValid f = some e →
        processFile f mode fs = (Except.error e, fs)) := by
  constructor
  · intro f
    rw [isFileValid]
    by_cases hd : f.IsDir
    · simp [hd]
    · by_cases hn : goTrimSpace f.Name = ""
      · simp [hd, hn]
      · by_cases hs : f.Size ≤ 0
        · simp [hd, hn, hs]
        · simp [hd, hn, hs]
  · intro f e mode fs hv
    have hd : ¬(f.IsDir = true) := by
      intro h
      rw [isFileValid, if_pos h] at hv
      cases hv
    rw [processFile, if_neg hd, hv]

/-- Witness for C4: a whitespace-named, zero-size non-directory record fails
validation and is rejected by `processFile` without touching the state. -/
theorem isFileValid_spec_and_guard_witness :
    isFileValid sampleBad ≠ none ∧
    processFile sampleBad false sampleFS =
      (Except.error "filename cannot be empty", sampleFS) :=
  ⟨(isFileValid_spec_and_guard.1 sampleBad).2 (by decide),
   isFileValid_spec_and_guard.2 sampleBad "filename cannot be empty" false
     sampleFS (by decide)⟩

/-- The scan produces one record per entry with readable metadata. -/
theorem scanEntries_fst_length (dirPath : List String)
    (entries : List DirEntry) :
    (scanEntries dirPath entries).1.length =
      (entries.filter (fun e => e.info.isSome)).length := by
  induction entries with
  | nil => rfl
  | cons entry rest ih =>
    cases h : entry.info with
    | none => simp [scanEntries, h, List.filter_cons, ih]
    | some i => simp [scanEntries, h, List.filter_cons, ih]

/-- The scan emits one skip warning per entry whose metadata read fails. -/
theorem scanEntries_snd_length (dirPath : List String)
    (entries : List DirEntry) :
    (scanEntries dirPath entries).2.length =
      (entries.filter (fun e => e.info.isNone)).length := by
  induction entries with
  | nil => rfl
  | cons entry rest ih =>
    cases h : entry.info with
    | none => simp [scanEntries, h, List.filter_cons, ih]
    | some i => simp [scanEntries, h, List.filter_cons, ih]

/-- C5: scanning a directory with N readable entries and M entries whose
metadata read fails yields exactly N records and M skip warnings, and a
failing read of the directory itself yields a descriptive error with no
records. -/
theorem scanDir_counts_and_failure :
    (∀ (dirPath : List String) (entries : List DirEntry),
      scanDir dirPath (Except.ok entries) =
        Except.ok (scanEntries dirPath entries) ∧
      (scanEntries dirPath entries).1.length =
        (entries.filter (fun e => e.info.isSome)).length ∧
      (scanEntries dirPath entries).2.length =
        (entries.filter (fun e => e.info.isNone)).length) ∧
    (∀ (dirPath : List String) (msg : String),
      scanDir dirPath (Except.error msg) =
        Except.error ("failed to read directory: " ++ msg)) :=
  ⟨fun d es => ⟨rfl, scanEntries_fst_length d es, scanEntries_snd_length d es⟩,
   fun _ _ => rfl⟩

/-- Field values of the record built for one readable entry. -/
theorem scannedFile_fields (dirPath : List String) (entry : DirEntry)
    (info : EntryInfo) :
    (scannedFile dirPath entry info).Name = entry.name ∧
    (scannedFile dirPath entry info).IsDir = entry.isDir ∧
    (scannedFile dirPath entry info).Extension =
      goToLower (filepathExt entry.name) ∧
    (scannedFile dirPath entry info).Category =
      categorizeWith Categories entry.isDir (goToLower (filepathExt entry.name)) :=
  ⟨rfl, rfl, rfl, rfl⟩

/-- The classifier only ever produces "Folder", a table key, or "Other", and
never the empty string. -/
theorem categorizeWith_shape (d : Bool) (e : String) :
    categorizeWith Categories d e ≠ "" ∧
    (d = true → categorizeWith Categories d e = "Folder") ∧
    (d = false → categorizeWith Categories d e ∈ Categories.map Prod.fst ∨
      categorizeWith Categories d e = "Other") := by
  cases d with
  | true =>
    have hval : categorizeWith Categories true e = "Folder" := rfl
    refine ⟨?_, fun _ => hval, ?_⟩
    · rw [hval]
      decide
    · intro h
      cases h
  | false =>
    cases hfc : findCat e Categories with
    | some c =>
      have hc : c ∈ Categories.map Prod.fst := findCat_mem_keys hfc
      have hval : categorizeWith Categories false e = c := by
        rw [categorizeWith, if_neg (by simp), hfc]
      refine ⟨?_, ?_, fun _ => Or.inl (by rw [hval]; exact hc)⟩
      · rw [hval]
        simp only [Categories, List.map_cons, List.map_nil, List.mem_cons,
          List.not_mem_nil, or_false] at hc
        rcases hc with rfl | rfl | rfl | rfl <;> decide
      · intro h
        cases h
    | none =>
      have hval : categorizeWith Categories false e = "Other" := by
        rw [categorizeWith, if_neg (by simp), hfc]
      refine ⟨?_, ?_, fun _ => Or.inr hval⟩
      · rw [hval]
        decide
      · intro h
        cases h

/-- C6: every record produced by a successful scan has a non-blank category
("Folder" for directory entries, otherwise a table key or "Other"), and its
extension field is the lowercased extension of its name. -/
theorem scan_record_invariants (dirPath : List String)
    (entries : List DirEntry) (f : File)
    (hf : f ∈ (scanEntries dirPath entries).1) :
    f.Category ≠ "" ∧
    (f.IsDir = true → f.Category = "Folder") ∧
    (f.IsDir = false →
      f.Category ∈ Categories.map Prod.fst ∨ f.Category = "Other") ∧
    f.Extension = goToLower (filepathExt f.Name) := by
  induction entries with
  | nil => simp [scanEntries] at hf
  | cons entry rest ih =>
    cases hinfo : entry.info with
    | none =>
      rw [scanEntries, hinfo] at hf
      exact ih hf
    | some i =>
      rw [scanEntries, hinfo] at hf
      rcases List.mem_cons.1 hf with rfl | hf2
      · obtain ⟨hn, hd, he, hc⟩ := scannedFile_fields dirPath entry i
        obtain ⟨h1, h2, h3⟩ :=
          categorizeWith_shape entry.isDir (goToLower (filepathExt entry.name))
        refine ⟨by rw [hc]; exact h1, ?_, ?_, by rw [he, hn]⟩
        · intro hdir
          rw [hc]
          exact h2 (hd.symm.trans hdir)
        · intro hdir
          rw [hc]
          exact h3 (hd.symm.trans hdir)
      · exact ih hf2

/-- Witness for C6 at a concrete scanned entry. -/
theorem scan_record_invariants_witness :
    (scannedFile ["d"] sampleEntry ⟨10, 0⟩).Category ≠ "" ∧
    (scannedFile ["d"] sampleEntry ⟨10, 0⟩).Extension =
      goToLower (filepathExt (scannedFile ["d"] sampleEntry ⟨10, 0⟩).Name) := by
  obtain ⟨h1, _, _, h4⟩ :=
    scan_record_invariants ["d"] [sampleEntry]
      (scannedFile ["d"] sampleEntry ⟨10, 0⟩) (List.mem_cons_self _ _)
  exact ⟨h1, h4⟩

/-- C1: in apply mode, a valid non-directory record is moved into the
destination directory named after its category, sibling to its original
location (same parent), preserving its filename; the destination directory is
created when absent, and when it already exists no new directory is created
and the call still succeeds. -/
theorem processFile_apply_moves_to_category_dir (f : File) (fs : FS)
    (hdir : f.IsDir = false)
    (hvalid : isFileValid f = none)
    (hsrc : f.Path ∈ fs.files)
    (hnf : f.Path.dropLast ++ [f.Category] ∉ fs.files) :
    (processFile f false fs).1 = Except.ok () ∧
    f.Path.dropLast ++ [f.Category] ∈ (processFile f false fs).2.dirs ∧
    f.Path.dropLast ++ [f.Category] ++ [f.Name] ∈
      (processFile f false fs).2.files ∧
    (f.Path ≠ f.Path.dropLast ++ [f.Category] ++ [f.Name] →
      f.Path ∉ (processFile f false fs).2.files) ∧
    (f.Path.dropLast ++ [f.Category] ∈ fs.dirs →
      (processFile f false fs).2.dirs = fs.dirs) := by
  have hdl : (f.Path.dropLast ++ [f.Category] ++ [f.Name]).dropLast =
      f.Path.dropLast ++ [f.Category] := by
    simp
  by_cases hd2 : f.Path.dropLast ++ [f.Category] ∈ fs.dirs
  · refine ⟨?_, ?_, ?_, fun hne => ?_, fun _ => ?_⟩
    · simp [processFile, hdir, hvalid, mkdirAll, rename, hdl, hnf, hsrc, hd2]
    · simp [processFile, hdir, hvalid, mkdirAll, rename, hdl, hnf, hsrc, hd2]
    · simp [processFile, hdir, hvalid, mkdirAll, rename, hdl, hnf, hsrc, hd2]
    · simp only [processFile, hdir, hvalid, mkdirAll, rename, hdl, hnf, hsrc,
        hd2]
      simp [hnf, hsrc, hd2]
      simpa using hne
    · simp [processFile, hdir, hvalid, mkdirAll, rename, hdl, hnf, hsrc, hd2]
  · refine ⟨?_, ?_, ?_, fun hne => ?_, fun hmem => ?_⟩
    · simp [processFile, hdir, hvalid, mkdirAll, rename, hdl, hnf, hsrc, hd2]
    · simp [processFile, hdir, hvalid, mkdirAll, rename, hdl, hnf, hsrc, hd2]
    · simp [processFile, hdir, hvalid, mkdirAll, rename, hdl, hnf, hsrc, hd2]
    · simp only [processFile, hdir, hvalid, mkdirAll, rename, hdl, hnf, hsrc,
        hd2]
      simp [hnf, hsrc, hd2]
      simpa using hne
    · exact absurd hmem hd2

/-- Witness for C1: `d/a.pdf` is moved to `d/Docs/a.pdf` and the `d/Docs`
directory is created. -/
theorem processFile_apply_moves_to_category_dir_witness :
    (processFile samplePdf false sampleFS).1 = Except.ok () ∧
    samplePdf.Path.dropLast ++ [samplePdf.Category] ∈
      (processFile samplePdf false sampleFS).2.dirs ∧
    samplePdf.Path.dropLast ++ [samplePdf.Category] ++ [samplePdf.Name] ∈
      (processFile samplePdf false sampleFS).2.files ∧
    samplePdf.Path ∉ (processFile samplePdf false sampleFS).2.files := by
  obtain ⟨h1, h2, h3, h4, _⟩ :=
    processFile_apply_moves_to_category_dir samplePdf sampleFS rfl (by decide)
      (by decide) (by decide)
  exact ⟨h1, h2, h3, h4 (by decide)⟩

/-- Scanning a dot-free name from the end never finds an extension. -/
theorem extRev_eq_nil_of_no_dot {l : List Char} (acc : List Char)
    (h : ∀ c ∈ l, c ≠ '.') : extRev acc l = [] := by
  induction l generalizing acc with
  | nil => rfl
  | cons c rest ih =>
    rw [extRev]
    by_cases hc : c = '/'
    · rw [if_pos hc]
    · rw [if_neg hc, if_neg (h c (List.mem_cons_self _ _))]
      exact ih _ fun x hx => h x (List.mem_cons_of_mem _ hx)

/-- Scanning from the end past dot-free, separator-free characters down to a
dot returns the dot plus everything scanned so far. -/
theorem extRev_append_dot {l : List Char} (acc : List Char)
    (h : ∀ c ∈ l, c ≠ '.' ∧ c ≠ '/') :
    extRev acc (l ++ ['.']) = '.' :: (l.reverse ++ acc) := by
  induction l generalizing acc with
  | nil => simp [extRev]
  | cons c rest ih =>
    rw [List.cons_append, extRev,
      if_neg (h c (List.mem_cons_self _ _)).2,
      if_neg (h c (List.mem_cons_self _ _)).1,
      ih _ fun x hx => h x (List.mem_cons_of_mem _ hx)]
    simp

/-- `filepath.Ext` of a name without any dot is empty. -/
theorem filepathExt_no_dot {s : String} (h : ∀ c ∈ s.data, c ≠ '.') :
    filepathExt s = "" := by
  rw [filepathExt,
    extRev_eq_nil_of_no_dot [] fun c hc => h c (List.mem_reverse.1 hc)]

/-- `filepath.Ext` of a dotfile whose only dot is the leading one (and whose
remainder has no separator) is the whole name. -/
theorem filepathExt_dotfile {s : String} {rest : List Char}
    (hdata : s.data = '.' :: rest)
    (h : ∀ c ∈ rest, c ≠ '.' ∧ c ≠ '/') : filepathExt s = s := by
  have h1 : (filepathExt s).data = '.' :: rest := by
    show extRev [] s.data.reverse = '.' :: rest
    have h2 : s.data.reverse = rest.reverse ++ ['.'] := by
      rw [hdata]
      simp
    rw [h2, extRev_append_dot [] fun c hc => h c (List.mem_reverse.1 hc)]
    simp
  exact String.ext (h1.trans hdata.symm)

/-- C10: a non-directory entry whose name contains no dot is scanned with an
empty extension and classified "Other"; an entry whose name begins with its
only dot gets the entire lowercased name as extension, so names ".md" and
".pdf" are classified "Docs". -/
theorem extension_no_dot_and_dotfile :
    (∀ (dirPath : List String) (entry : DirEntry) (info : EntryInfo),
        entry.isDir = false →
        (∀ c ∈ entry.name.data, c ≠ '.') →
        (scannedFile dirPath entry info).Extension = "" ∧
        (scannedFile dirPath entry info).Category = "Other") ∧
    (∀ (dirPath : List String) (entry : DirEntry) (info : EntryInfo)
        (rest : List Char),
        entry.name.data = '.' :: rest →
        (∀ c ∈ rest, c ≠ '.' ∧ c ≠ '/') →
        (scannedFile dirPath entry info).Extension = goToLower entry.name) ∧
    (∀ (dirPath : List String) (info : EntryInfo),
        (scannedFile dirPath ⟨".md", false, some info⟩ info).Category = "Docs" ∧
        (scannedFile dirPath ⟨".pdf", false, some info⟩ info).Category = "Docs") := by
  refine ⟨?_, ?_, ?_⟩
  · intro dirPath entry info hdir hnd
    have hext : (scannedFile dirPath entry info).Extension =
        goToLower (filepathExt entry.name) := rfl
    have hcat : (scannedFile dirPath entry info).Category =
        categorizeWith Categories entry.isDir (goToLower (filepathExt entry.name)) :=
      rfl
    have hemp : goToLower "" = "" := rfl
    rw [filepathExt_no_dot hnd, hemp] at hext hcat
    rw [hdir] at hcat
    exact ⟨hext, hcat.trans (by decide)⟩
  · intro dirPath entry info rest hdata hres
    have hext : (scannedFile dirPath entry info).Extension =
        goToLower (filepathExt entry.name) := rfl
    rw [filepathExt_dotfile hdata hres] at hext
    exact hext
  · intro dirPath info
    have h1 : (scannedFile dirPath ⟨".md", false, some info⟩ info).Category =
        categorizeWith Categories false (goToLower (filepathExt ".md")) := rfl
    have h2 : (scannedFile dirPath ⟨".pdf", false, some info⟩ info).Category =
        categorizeWith Categories false (goToLower (filepathExt ".pdf")) := rfl
    exact ⟨h1.trans (by decide), h2.trans (by decide)⟩

/-- Witness for C10 at the names "README" and ".md". -/
theorem extension_no_dot_and_dotfile_witness :
    (scannedFile ["d"] ⟨"README", false, some ⟨1, 0⟩⟩ ⟨1, 0⟩).Extension = "" ∧
    (scannedFile ["d"] ⟨"README", false, some ⟨1, 0⟩⟩ ⟨1, 0⟩).Category = "Other" ∧
    (scannedFile ["d"] ⟨".md", false, some ⟨1, 0⟩⟩ ⟨1, 0⟩).Extension =
      goToLower ".md" := by
  obtain ⟨h1, h2⟩ :=
    extension_no_dot_and_dotfile.1 ["d"] ⟨"README", false, some ⟨1, 0⟩⟩ ⟨1, 0⟩
      rfl (by decide)
  have h3 :=
    extension_no_dot_and_dotfile.2.1 ["d"] ⟨".md", false, some ⟨1, 0⟩⟩ ⟨1, 0⟩
      ['m', 'd'] (by decide) (by decide)
  exact ⟨h1, h2, h3⟩

end FileOrganizer
